import Mathlib

/-!
# Verification of csvcryptography.py

Shallow embedding of the core of `csvcryptography.py`: the stream-cipher
wrapper (`crypto`, `crypto_init`), the directory crawler (`crawler`) and the
per-file / per-row transformation loop of the main program.

Bytes are modelled as natural numbers and byte strings as `List Nat`.
The external AES-CTR engine (`pycryptopp.cipher.aes.AES`) and the hash
(`hashlib.md5`) are libraries outside the repository; following the spec they
are modelled abstractly: `md5` is an arbitrary function from passwords to key
material, and the counter-mode keystream is an arbitrary function
`aesKS : key → position → byte`, combined with the data by XOR
(spec: "output = input ⊕ keystream-byte, position-for-position").
-/

namespace CsvCrypto

/-- A CSV field's raw bytes. -/
abbrev Bytes := List Nat

/-- A parsed CSV row: an ordered list of fields. -/
abbrev Row := List Bytes

/-- The state of the AES object returned by `crypto_init`: the derived key and
the current keystream position.  Modelled from the spec: the engine itself is
external; only key identity and stream position are observable. -/
structure AES where
  key : Bytes
  pos : Nat
deriving DecidableEq

/-- XOR-combine consecutive bytes with the keystream starting at `pos`.
Modelled from the spec: "`transform` consumes the next `len(bytes)` keystream
bytes, combines them with the input via byte-wise reversible combination". -/
def procBytes (aesKS : Bytes → Nat → Nat) (key : Bytes) : Nat → Bytes → Bytes
  | _, [] => []
  | pos, b :: bs => (b ^^^ aesKS key pos) :: procBytes aesKS key (pos + 1) bs

/-- `crypto(string)` from the source: `enigma.process(string)`.  Returns the
transformed bytes together with the advanced engine state. -/
def crypto (aesKS : Bytes → Nat → Nat) (st : AES) (s : Bytes) : Bytes × AES :=
  (procBytes aesKS st.key st.pos s, { st with pos := st.pos + s.length })

/-- `crypto_init(password)` from the source:
`hashed_key = hashlib.md5(password).digest(); AES(key=hashed_key)`.
The construction is total: any password, the empty one included, yields an
engine whose keystream starts at position zero. -/
def crypto_init (md5 : Bytes → Bytes) (password : Bytes) : AES :=
  { key := md5 password, pos := 0 }

/-! ## Basic keystream lemmas -/

theorem procBytes_length (aesKS : Bytes → Nat → Nat) (key : Bytes) :
    ∀ (pos : Nat) (s : Bytes), (procBytes aesKS key pos s).length = s.length := by
  intro pos s
  induction s generalizing pos with
  | nil => rfl
  | cons b bs ih => simp [procBytes, ih]

theorem procBytes_append (aesKS : Bytes → Nat → Nat) (key : Bytes) :
    ∀ (pos : Nat) (a b : Bytes),
      procBytes aesKS key pos (a ++ b) =
        procBytes aesKS key pos a ++ procBytes aesKS key (pos + a.length) b := by
  intro pos a b
  induction a generalizing pos with
  | nil => simp [procBytes]
  | cons x xs ih =>
      simp only [List.cons_append, procBytes, List.length_cons, List.append_eq, ih]
      have h : pos + 1 + xs.length = pos + (xs.length + 1) := by omega
      rw [h]

theorem procBytes_invol (aesKS : Bytes → Nat → Nat) (key : Bytes) :
    ∀ (pos : Nat) (s : Bytes),
      procBytes aesKS key pos (procBytes aesKS key pos s) = s := by
  intro pos s
  induction s generalizing pos with
  | nil => rfl
  | cons b bs ih =>
      simp only [procBytes, ih]
      rw [Nat.xor_assoc, Nat.xor_self, Nat.xor_zero]

/-- C4: stream continuity — transforming `a` then `b` in immediate succession
produces exactly the two halves (split at `a.length`) of transforming the
concatenation `a ++ b` in one call, and leaves the engine in the same state. -/
theorem crypto_stream_continuity (aesKS : Bytes → Nat → Nat) (st : AES) (a b : Bytes) :
    (crypto aesKS st (a ++ b)).1.take a.length = (crypto aesKS st a).1 ∧
    (crypto aesKS st (a ++ b)).1.drop a.length =
      (crypto aesKS (crypto aesKS st a).2 b).1 ∧
    (crypto aesKS st (a ++ b)).2 = (crypto aesKS (crypto aesKS st a).2 b).2 := by
  have hsplit := procBytes_append aesKS st.key st.pos a b
  have hlen := procBytes_length aesKS st.key st.pos a
  refine ⟨?_, ?_, ?_⟩
  · simp [crypto, hsplit, List.take_append_of_le_length, hlen]
  · simp [crypto, hsplit, List.drop_append_of_le_length, hlen]
  · simp [crypto, List.length_append]
    ring

/-! ## The row / file / batch transformation of the main loop -/

/-- `sorted(target_columns)` as used in the main loop (`# do not depend on
user`): Python `sorted` yields the ascending reordering of the list, keeping
duplicates. -/
def sortedColumns (tc : List Nat) : List Nat := List.insertionSort (· ≤ ·) tc

/-- All-columns branch of the row loop: `newline = map(crypto, line)`, applied
left to right with the shared engine state. -/
def cryptoRow (aesKS : Bytes → Nat → Nat) (st : AES) : Row → Row × AES
  | [] => ([], st)
  | f :: fs =>
    let p := crypto aesKS st f
    let q := cryptoRow aesKS p.2 fs
    (p.1 :: q.1, q.2)

/-- Selected-columns branch of the row loop:
`newline = copy.copy(line)`, then
`for column in sorted(target_columns): newline[column] = crypto(line[column])`.
Reads always come from the original `line`; writes go to the accumulator
`newline`.  `line[column]` with `column ≥ len(line)` raises `IndexError`,
modelled as `none`. -/
def applyCols (aesKS : Bytes → Nat → Nat) (line : Row) :
    Row → AES → List Nat → Option (Row × AES)
  | newline, st, [] => some (newline, st)
  | newline, st, c :: cs =>
    if h : c < line.length then
      let p := crypto aesKS st (line.get ⟨c, h⟩)
      applyCols aesKS line (newline.set c p.1) p.2 cs
    else none

/-- One iteration of the per-row body of the main loop, parameterised by the
value of `options.columns` as the loop's condition sees it: `cols = none`
selects the whole-row branch, `cols = some tc` embeds the selected-columns
branch of lines 183-186.  Note that `none` is the only value reachable from
the command line — see `optionsColumns`: the `-c` callback never stores its
value, so the `some` branch is dead code in the shipped program. -/
def transformLine (aesKS : Bytes → Nat → Nat) (cols : Option (List Nat))
    (st : AES) (line : Row) : Option (Row × AES) :=
  match cols with
  | none => some (cryptoRow aesKS st line)
  | some tc => applyCols aesKS line line st (sortedColumns tc)

/-- The whole-file row loop, threading the shared engine state. -/
def transformRows (aesKS : Bytes → Nat → Nat) (cols : Option (List Nat)) :
    AES → List Row → Option (List Row × AES)
  | st, [] => some ([], st)
  | st, r :: rs =>
    match transformLine aesKS cols st r with
    | none => none
    | some p =>
      match transformRows aesKS cols p.2 rs with
      | none => none
      | some q => some (p.1 :: q.1, q.2)

/-- Per-file processing: `enigma = crypto_init(options.password)` — a fresh
engine at keystream position zero — then the row loop over the parsed rows. -/
def processFile (md5 : Bytes → Bytes) (aesKS : Bytes → Nat → Nat)
    (cols : Option (List Nat)) (password : Bytes) (rows : List Row) :
    Option (List Row) :=
  (transformRows aesKS cols (crypto_init md5 password) rows).map Prod.fst

/-- One batch target: `none` models a file the external CSV reader rejects
(`csv.Error`); `some rows` a file parsed into `rows`. -/
abbrev Target := Option (List Row)

/-- The main loop over the crawled targets.  A `csv.Error` is caught: the file
is skipped (kept as `none` in the outcome list) and processing continues with
the next target.  An out-of-range column index raises `IndexError`, which no
handler in the script catches: the whole run aborts (`Except.error ()`). -/
def processBatch (md5 : Bytes → Bytes) (aesKS : Bytes → Nat → Nat)
    (cols : Option (List Nat)) (password : Bytes) :
    List Target → Except Unit (List Target)
  | [] => .ok []
  | none :: ts =>
      (processBatch md5 aesKS cols password ts).map (fun out => none :: out)
  | some rows :: ts =>
      match processFile md5 aesKS cols password rows with
      | none => .error ()
      | some out =>
          (processBatch md5 aesKS cols password ts).map (fun o => some out :: o)

/-- Decidable in-range check: every selected column index is smaller than the
field count of every row (vacuously true when the whole row is selected). -/
def inRangeSelB (cols : Option (List Nat)) (rows : List Row) : Bool :=
  match cols with
  | none => true
  | some tc => rows.all (fun r => tc.all (fun c => decide (c < r.length)))

/-- The value of `options.columns` after CLI parsing, for a syntactically
valid `-c` argument (`rawSpec` is its validated token list, `none` when the
option is absent; a non-digit token terminates the process pre-flight and is
out of scope here).  `-c` is declared with `action='callback'`: optparse runs
`check_columns`, which only validates and never calls `setattr` on
`parser.values`, and a callback action does not store the value itself — so
the option keeps its default `None` on every invocation, whatever was
supplied. -/
def optionsColumns (_rawSpec : Option (List Nat)) : Option (List Nat) := none

/-- A full program run over the crawled targets: CLI parsing resolves the
column option via `optionsColumns`, then the main loop processes each target
with that selection. -/
def runBatch (md5 : Bytes → Bytes) (aesKS : Bytes → Nat → Nat)
    (rawSpec : Option (List Nat)) (password : Bytes) (targets : List Target) :
    Except Unit (List Target) :=
  processBatch md5 aesKS (optionsColumns rawSpec) password targets

/-! ## Helper view of `applyCols`: an explicit write list -/

/-- Field access as the row loop sees it (out of range never happens in the
lemmas below; `[]` is a dummy default). -/
def fld (l : Row) (j : Nat) : Bytes := l.getD j []

/-- Total bytes consumed from the keystream by visiting `cols` of `line`,
with multiplicity. -/
def sumLens (line : Row) : List Nat → Nat
  | [] => 0
  | c :: cs => (fld line c).length + sumLens line cs

/-- The sequence of `(index, transformed value)` writes the selected-columns
loop performs, with the keystream position each one consumes. -/
def writeList (aesKS : Bytes → Nat → Nat) (key : Bytes) (line : Row) :
    Nat → List Nat → List (Nat × Bytes)
  | _, [] => []
  | pos, c :: cs =>
      (c, procBytes aesKS key pos (fld line c)) ::
        writeList aesKS key line (pos + (fld line c).length) cs

/-- Replay a write list onto an accumulator row. -/
def applyWrites (a : Row) : List (Nat × Bytes) → Row
  | [] => a
  | w :: ws => applyWrites (a.set w.1 w.2) ws

/-- The value of the last write at index `j`, if any. -/
def lastVal (j : Nat) : List (Nat × Bytes) → Option Bytes
  | [] => none
  | w :: ws =>
      match lastVal j ws with
      | some v => some v
      | none => if w.1 = j then some w.2 else none

/-! ## Helper lemmas about the write-list view -/

theorem fld_set_self {a : Row} {j : Nat} (h : j < a.length) (v : Bytes) :
    fld (a.set j v) j = v := by
  simp [fld, List.getD_eq_getElem?_getD, List.getElem?_set_self h]

theorem fld_set_ne {a : Row} {c j : Nat} (h : c ≠ j) (v : Bytes) :
    fld (a.set c v) j = fld a j := by
  simp [fld, List.getD_eq_getElem?_getD, List.getElem?_set_ne h]

theorem applyWrites_length (ws : List (Nat × Bytes)) :
    ∀ a : Row, (applyWrites a ws).length = a.length := by
  induction ws with
  | nil => intro a; rfl
  | cons w ws ih => intro a; simp [applyWrites, ih, List.length_set]

theorem applyWrites_fld_none {j : Nat} (ws : List (Nat × Bytes)) :
    lastVal j ws = none → ∀ a : Row, fld (applyWrites a ws) j = fld a j := by
  induction ws with
  | nil => intro _ a; rfl
  | cons w ws ih =>
      intro h a
      simp only [lastVal] at h
      rcases hlv : lastVal j ws with _ | v
      · rw [hlv] at h
        simp only [applyWrites]
        rw [ih hlv]
        by_cases hc : w.1 = j
        · simp [hc] at h
        · rw [fld_set_ne hc]
      · rw [hlv] at h; exact absurd h (by simp)

theorem applyWrites_fld_some {j : Nat} {v : Bytes} (ws : List (Nat × Bytes)) :
    lastVal j ws = some v → ∀ a : Row, j < a.length →
      fld (applyWrites a ws) j = v := by
  induction ws with
  | nil => intro h; exact absurd h (by simp [lastVal])
  | cons w ws ih =>
      intro h a ha
      simp only [lastVal] at h
      rcases hlv : lastVal j ws with _ | v'
      · rw [hlv] at h
        by_cases hc : w.1 = j
        · simp only [hc, if_pos rfl] at h
          simp only [applyWrites]
          rw [applyWrites_fld_none ws hlv, hc]
          rw [fld_set_self ha]
          exact Option.some.inj h
        · simp [hc] at h
      · rw [hlv] at h
        simp only [applyWrites]
        exact ih (hlv.trans h) _ (by simpa [List.length_set] using ha)

theorem fld_eq_get {line : Row} {c : Nat} (h : c < line.length) :
    fld line c = line.get ⟨c, h⟩ := by
  simp [fld, List.getD_eq_getElem?_getD, List.get_eq_getElem, List.getElem?_eq_getElem h]

theorem lastVal_cons_some {j : Nat} {w : Nat × Bytes} {ws : List (Nat × Bytes)}
    {v : Bytes} (h : lastVal j ws = some v) : lastVal j (w :: ws) = some v := by
  simp [lastVal, h]

theorem lastVal_cons_none {j : Nat} {w : Nat × Bytes} {ws : List (Nat × Bytes)}
    (h : lastVal j ws = none) :
    lastVal j (w :: ws) = if w.1 = j then some w.2 else none := by
  simp [lastVal, h]

theorem writeList_fst (aesKS : Bytes → Nat → Nat) (key : Bytes) (line : Row) :
    ∀ (pos : Nat) (cols : List Nat),
      (writeList aesKS key line pos cols).map Prod.fst = cols := by
  intro pos cols
  induction cols generalizing pos with
  | nil => rfl
  | cons c cs ih => simp [writeList, ih]

theorem lastVal_eq_none_iff (j : Nat) :
    ∀ ws : List (Nat × Bytes), lastVal j ws = none ↔ ∀ w ∈ ws, w.1 ≠ j := by
  intro ws
  induction ws with
  | nil => simp [lastVal]
  | cons w ws ih =>
      rcases hlv : lastVal j ws with _ | v
      · rw [lastVal_cons_none hlv]
        rw [hlv] at ih
        by_cases hc : w.1 = j
        · rw [if_pos hc]
          constructor
          · intro h; exact absurd h (by simp)
          · intro h; exact absurd hc (h w (List.mem_cons_self w ws))
        · rw [if_neg hc]
          constructor
          · intro _ w' hw'
            rcases List.mem_cons.mp hw' with h' | h'
            · rw [h']; exact hc
            · exact ih.mp rfl w' h'
          · intro _; rfl
      · rw [lastVal_cons_some hlv]
        rw [hlv] at ih
        constructor
        · intro h; exact absurd h (by simp)
        · intro h
          exact absurd (ih.mpr fun w' hw' => h w' (List.mem_cons_of_mem w hw'))
            (by simp)

theorem lastVal_writeList_eq_none_iff (aesKS : Bytes → Nat → Nat) (key : Bytes)
    (line : Row) (pos : Nat) (cols : List Nat) (j : Nat) :
    lastVal j (writeList aesKS key line pos cols) = none ↔ j ∉ cols := by
  rw [lastVal_eq_none_iff]
  constructor
  · intro h hj
    rw [← writeList_fst aesKS key line pos cols] at hj
    obtain ⟨w, hw, hww⟩ := List.mem_map.mp hj
    exact h w hw hww
  · intro hj w hw hww
    apply hj
    rw [← writeList_fst aesKS key line pos cols]
    exact List.mem_map.mpr ⟨w, hw, hww⟩

theorem lastVal_writeList_pair (aesKS : Bytes → Nat → Nat) (key : Bytes) :
    ∀ (cols : List Nat) (l1 l2 : Row),
      (∀ c ∈ cols, (fld l2 c).length = (fld l1 c).length) →
      ∀ (j pos : Nat),
        (lastVal j (writeList aesKS key l1 pos cols) = none ∧
         lastVal j (writeList aesKS key l2 pos cols) = none) ∨
        ∃ p, lastVal j (writeList aesKS key l1 pos cols) =
               some (procBytes aesKS key p (fld l1 j)) ∧
             lastVal j (writeList aesKS key l2 pos cols) =
               some (procBytes aesKS key p (fld l2 j)) := by
  intro cols
  induction cols with
  | nil => intro l1 l2 _ j pos; left; exact ⟨rfl, rfl⟩
  | cons c cs ih =>
      intro l1 l2 hlen j pos
      have hc : (fld l2 c).length = (fld l1 c).length :=
        hlen c (List.mem_cons_self c cs)
      have hlen' : ∀ c' ∈ cs, (fld l2 c').length = (fld l1 c').length :=
        fun c' hc' => hlen c' (List.mem_cons_of_mem c hc')
      simp only [writeList, lastVal, hc]
      rcases ih l1 l2 hlen' j (pos + (fld l1 c).length) with ⟨h1, h2⟩ | ⟨p, h1, h2⟩
      · rw [h1, h2]
        by_cases hcj : c = j
        · right
          exact ⟨pos, by simp [hcj], by simp [hcj]⟩
        · left
          simp [hcj]
      · rw [h1, h2]
        right
        exact ⟨p, rfl, rfl⟩

theorem sumLens_congr {cols : List Nat} {l1 l2 : Row}
    (h : ∀ c ∈ cols, (fld l2 c).length = (fld l1 c).length) :
    sumLens l2 cols = sumLens l1 cols := by
  induction cols with
  | nil => rfl
  | cons c cs ih =>
      simp only [sumLens, h c (List.mem_cons_self c cs)]
      rw [ih fun c' hc' => h c' (List.mem_cons_of_mem c hc')]

theorem sumLens_eq_sum_map (line : Row) :
    ∀ cols : List Nat,
      sumLens line cols = (cols.map fun c => (fld line c).length).sum := by
  intro cols
  induction cols with
  | nil => rfl
  | cons c cs ih => simp [sumLens, ih]

theorem sumLens_perm (line : Row) {cols1 cols2 : List Nat}
    (h : cols1.Perm cols2) : sumLens line cols1 = sumLens line cols2 := by
  rw [sumLens_eq_sum_map, sumLens_eq_sum_map]
  exact List.Perm.sum_eq (List.Perm.map _ h)

/-- The selected-columns loop, in closed form: under in-range indices it
performs exactly the writes of `writeList` and advances the stream by
`sumLens`. -/
theorem applyCols_eq_writes (aesKS : Bytes → Nat → Nat) :
    ∀ (cols : List Nat) (line a : Row) (st : AES),
      (∀ c ∈ cols, c < line.length) →
      applyCols aesKS line a st cols =
        some (applyWrites a (writeList aesKS st.key line st.pos cols),
              ⟨st.key, st.pos + sumLens line cols⟩) := by
  intro cols
  induction cols with
  | nil =>
      intro line a st _
      obtain ⟨k, p⟩ := st
      simp [applyCols, applyWrites, writeList, sumLens]
  | cons c cs ih =>
      intro line a st hin
      have hc : c < line.length := hin c (List.mem_cons_self c cs)
      have hcs : ∀ c' ∈ cs, c' < line.length :=
        fun c' hc' => hin c' (List.mem_cons_of_mem c hc')
      simp only [applyCols, dif_pos hc, crypto]
      rw [ih line _ ⟨st.key, st.pos + (line.get ⟨c, hc⟩).length⟩ hcs]
      simp only [writeList, applyWrites, sumLens]
      rw [← fld_eq_get hc]
      have harith :
          st.pos + (fld line c).length + sumLens line cs =
            st.pos + ((fld line c).length + sumLens line cs) := by omega
      rw [harith]

theorem lastVal_writeList_mem (aesKS : Bytes → Nat → Nat) (key : Bytes)
    (line : Row) (pos : Nat) {cols : List Nat} {j : Nat} (hj : j ∈ cols) :
    ∃ p, lastVal j (writeList aesKS key line pos cols) =
      some (procBytes aesKS key p (fld line j)) := by
  rcases lastVal_writeList_pair aesKS key cols line line (fun _ _ => rfl) j pos with
    ⟨h1, _⟩ | ⟨p, h1, _⟩
  · exact absurd hj ((lastVal_writeList_eq_none_iff aesKS key line pos cols j).mp h1)
  · exact ⟨p, h1⟩

/-- Full behaviour of one selected-columns pass, plus the fact that a second
pass from the same starting state undoes it exactly. -/
theorem applyCols_invol (aesKS : Bytes → Nat → Nat) (cols : List Nat)
    (line : Row) (st : AES) (hin : ∀ c ∈ cols, c < line.length) :
    ∃ nl st₁,
      applyCols aesKS line line st cols = some (nl, st₁) ∧
      applyCols aesKS nl nl st cols = some (line, st₁) ∧
      nl.length = line.length ∧
      (∀ j, j ∉ cols → fld nl j = fld line j) ∧
      (∀ c ∈ cols, (fld nl c).length = (fld line c).length ∧
        ∃ p, fld nl c = procBytes aesKS st.key p (fld line c)) ∧
      st₁.key = st.key ∧ st₁.pos = st.pos + sumLens line cols := by
  have h1 := applyCols_eq_writes aesKS cols line line st hin
  set ws1 := writeList aesKS st.key line st.pos cols with hws1
  set nl := applyWrites line ws1 with hnl
  have hlen : nl.length = line.length := applyWrites_length ws1 line
  have hmem : ∀ c ∈ cols, ∃ p, fld nl c = procBytes aesKS st.key p (fld line c) := by
    intro c hc
    obtain ⟨p, hp⟩ := lastVal_writeList_mem aesKS st.key line st.pos hc
    exact ⟨p, applyWrites_fld_some ws1 hp line (hin c hc)⟩
  have hnonmem : ∀ j, j ∉ cols → fld nl j = fld line j := by
    intro j hj
    exact applyWrites_fld_none ws1
      ((lastVal_writeList_eq_none_iff aesKS st.key line st.pos cols j).mpr hj) line
  have hlenAgree : ∀ c ∈ cols, (fld nl c).length = (fld line c).length := by
    intro c hc
    obtain ⟨p, hp⟩ := hmem c hc
    rw [hp, procBytes_length]
  have hin2 : ∀ c ∈ cols, c < nl.length := fun c hc => hlen ▸ hin c hc
  have h2 := applyCols_eq_writes aesKS cols nl nl st hin2
  set ws2 := writeList aesKS st.key nl st.pos cols with hws2
  have hsum : sumLens nl cols = sumLens line cols := sumLens_congr hlenAgree
  have hback : applyWrites nl ws2 = line := by
    apply List.ext_getElem
    · rw [applyWrites_length ws2 nl, hlen]
    · intro n h₁ h₂
      have hn1 : n < nl.length := by
        rw [applyWrites_length ws2 nl] at h₁; exact h₁
      have hn2 : n < line.length := h₂
      have key : fld (applyWrites nl ws2) n = fld line n := by
        by_cases hmemn : n ∈ cols
        · rcases lastVal_writeList_pair aesKS st.key cols line nl hlenAgree n st.pos
            with ⟨hA, _⟩ | ⟨p, hA, hB⟩
          · exact absurd hmemn
              ((lastVal_writeList_eq_none_iff aesKS st.key line st.pos cols n).mp hA)
          · have e1 : fld nl n = procBytes aesKS st.key p (fld line n) :=
              applyWrites_fld_some ws1 hA line hn2
            have e2 : fld (applyWrites nl ws2) n = procBytes aesKS st.key p (fld nl n) :=
              applyWrites_fld_some ws2 hB nl hn1
            rw [e2, e1, procBytes_invol]
        · have hB : lastVal n ws2 = none :=
            (lastVal_writeList_eq_none_iff aesKS st.key nl st.pos cols n).mpr hmemn
          rw [applyWrites_fld_none ws2 hB nl]
          exact hnonmem n hmemn
      rw [fld_eq_get h₁, fld_eq_get hn2] at key
      simpa [List.get_eq_getElem] using key
  refine ⟨nl, ⟨st.key, st.pos + sumLens line cols⟩, h1, ?_, hlen, hnonmem,
    fun c hc => ⟨hlenAgree c hc, hmem c hc⟩, rfl, rfl⟩
  rw [h2, hback, hsum]

/-- One all-columns pass undoes a previous all-columns pass from the same
starting state, field by field, ending in the same stream state. -/
theorem cryptoRow_invol (aesKS : Bytes → Nat → Nat) :
    ∀ (line : Row) (st : AES),
      cryptoRow aesKS st (cryptoRow aesKS st line).1 =
        (line, (cryptoRow aesKS st line).2) := by
  intro line
  induction line with
  | nil => intro st; rfl
  | cons f fs ih =>
      intro st
      simp only [cryptoRow, crypto, procBytes_length, procBytes_invol]
      rw [ih ⟨st.key, st.pos + f.length⟩]

/-- Total byte length of all fields of a row. -/
def rowBytes (line : Row) : Nat := (line.map List.length).sum

theorem cryptoRow_length (aesKS : Bytes → Nat → Nat) :
    ∀ (line : Row) (st : AES),
      (cryptoRow aesKS st line).1.length = line.length ∧
      (∀ j : Nat, (fld (cryptoRow aesKS st line).1 j).length = (fld line j).length) ∧
      (cryptoRow aesKS st line).2.key = st.key ∧
      (cryptoRow aesKS st line).2.pos = st.pos + rowBytes line := by
  intro line
  induction line with
  | nil => intro st; exact ⟨rfl, fun j => rfl, rfl, rfl⟩
  | cons f fs ih =>
      intro st
      obtain ⟨ihl, ihf, ihk, ihp⟩ := ih ⟨st.key, st.pos + f.length⟩
      refine ⟨by simp [cryptoRow, crypto, ihl], ?_, ihk, ?_⟩
      · intro j
        cases j with
        | zero => simp [cryptoRow, crypto, fld, procBytes_length]
        | succ n =>
            simpa [cryptoRow, crypto, fld, List.getD_cons_succ] using ihf n
      · simp only [cryptoRow, crypto] at ihp ⊢
        rw [ihp]
        simp only [rowBytes, List.map_cons, List.sum_cons]
        omega

theorem mem_sortedColumns {c : Nat} {tc : List Nat} :
    c ∈ sortedColumns tc ↔ c ∈ tc :=
  (List.perm_insertionSort (· ≤ ·) tc).mem_iff

theorem sumLens_sortedColumns (line : Row) (tc : List Nat) :
    sumLens line (sortedColumns tc) = sumLens line tc :=
  sumLens_perm line (List.perm_insertionSort (· ≤ ·) tc)

theorem transformLine_invol (aesKS : Bytes → Nat → Nat) (cols : Option (List Nat))
    (st : AES) (line : Row)
    (hin : ∀ tc, cols = some tc → ∀ c ∈ tc, c < line.length) :
    ∃ nl st₁, transformLine aesKS cols st line = some (nl, st₁) ∧
      transformLine aesKS cols st nl = some (line, st₁) := by
  match cols with
  | none =>
      refine ⟨(cryptoRow aesKS st line).1, (cryptoRow aesKS st line).2, rfl, ?_⟩
      simp [transformLine, cryptoRow_invol]
  | some tc =>
      have hin' : ∀ c ∈ sortedColumns tc, c < line.length :=
        fun c hc => hin tc rfl c (mem_sortedColumns.mp hc)
      obtain ⟨nl, st₁, h1, h2, _⟩ := applyCols_invol aesKS (sortedColumns tc) line st hin'
      exact ⟨nl, st₁, h1, h2⟩

theorem transformRows_invol (aesKS : Bytes → Nat → Nat) (cols : Option (List Nat)) :
    ∀ (rows : List Row) (st : AES),
      (∀ r ∈ rows, ∀ tc, cols = some tc → ∀ c ∈ tc, c < r.length) →
      ∃ out st₁, transformRows aesKS cols st rows = some (out, st₁) ∧
        transformRows aesKS cols st out = some (rows, st₁) := by
  intro rows
  induction rows with
  | nil => intro st _; exact ⟨[], st, rfl, rfl⟩
  | cons r rs ih =>
      intro st hin
      obtain ⟨nl, st', h1, h2⟩ :=
        transformLine_invol aesKS cols st r (hin r (List.mem_cons_self r rs))
      obtain ⟨out, st₁, h3, h4⟩ :=
        ih st' (fun r' hr' => hin r' (List.mem_cons_of_mem r hr'))
      refine ⟨nl :: out, st₁, ?_, ?_⟩
      · simp [transformRows, h1, h3]
      · simp [transformRows, h2, h4]

/-- C1: involution of the full file transformation.  For every password, every
column selection (`none` = whole row) and every parsed file whose rows all
have enough fields, a second pass with the same password and selection — each
pass starting from a fresh `crypto_init` handle at keystream position zero —
restores the original rows exactly. -/
theorem file_transform_involution (md5 : Bytes → Bytes) (aesKS : Bytes → Nat → Nat)
    (cols : Option (List Nat)) (password : Bytes) (rows : List Row)
    (hin : inRangeSelB cols rows = true) :
    ∃ out, processFile md5 aesKS cols password rows = some out ∧
      processFile md5 aesKS cols password out = some rows := by
  have hin' : ∀ r ∈ rows, ∀ tc, cols = some tc → ∀ c ∈ tc, c < r.length := by
    intro r hr tc hc c hctc
    subst hc
    simp only [inRangeSelB, List.all_eq_true, decide_eq_true_eq] at hin
    exact hin r hr c hctc
  obtain ⟨out, st₁, h1, h2⟩ :=
    transformRows_invol aesKS cols rows (crypto_init md5 password) hin'
  exact ⟨out, by simp [processFile, h1], by simp [processFile, h2]⟩

/-- A concrete hash function standing in for `hashlib.md5` in witnesses. -/
def md5Ex : Bytes → Bytes := fun pw => pw ++ [16]

/-- A concrete keystream standing in for the AES-CTR engine in witnesses. -/
def ksEx : Bytes → Nat → Nat := fun key n => (key.sum + n) % 256

/-- Witness for C1: the concrete scenario of the spec — two rows, password
"pw", selection `{1}`; running the transformation twice restores the file. -/
theorem file_transform_involution_witness :
    inRangeSelB (some [1]) [[[49], [115, 101]], [[50], [99]]] = true ∧
    ∃ out,
      processFile md5Ex ksEx (some [1]) [112, 119] [[[49], [115, 101]], [[50], [99]]] =
        some out ∧
      processFile md5Ex ksEx (some [1]) [112, 119] out =
        some [[[49], [115, 101]], [[50], [99]]] :=
  ⟨by decide,
   file_transform_involution md5Ex ksEx (some [1]) [112, 119]
     [[[49], [115, 101]], [[50], [99]]] (by decide)⟩

/-- C5: frame property of the row transformation.  For a resolved in-range
selection, the output row has the same length (and field order), every
non-selected field is byte-for-byte the input field, every selected field is a
keystream transform of the input field of the same length, and the stream
position advances exactly by the byte lengths of the selected fields. -/
theorem row_transform_frame (aesKS : Bytes → Nat → Nat) (tc : List Nat)
    (line : Row) (st : AES) (_hnd : tc.Nodup)
    (hin : ∀ c ∈ tc, c < line.length) :
    ∃ nl st₁, transformLine aesKS (some tc) st line = some (nl, st₁) ∧
      nl.length = line.length ∧
      (∀ j, j ∉ tc → fld nl j = fld line j) ∧
      (∀ c ∈ tc, (fld nl c).length = (fld line c).length ∧
        ∃ p, fld nl c = procBytes aesKS st.key p (fld line c)) ∧
      st₁.key = st.key ∧
      st₁.pos = st.pos + sumLens line tc := by
  have hin' : ∀ c ∈ sortedColumns tc, c < line.length :=
    fun c hc => hin c (mem_sortedColumns.mp hc)
  obtain ⟨nl, st₁, h1, _, hlen, hnon, hmem, hkey, hpos⟩ :=
    applyCols_invol aesKS (sortedColumns tc) line st hin'
  refine ⟨nl, st₁, h1, hlen, ?_, ?_, hkey, ?_⟩
  · intro j hj
    exact hnon j (fun hmem' => hj (mem_sortedColumns.mp hmem'))
  · intro c hc
    exact hmem c (mem_sortedColumns.mpr hc)
  · rw [hpos, sumLens_sortedColumns line tc]

/-- Witness for C5 at a concrete row and selection. -/
theorem row_transform_frame_witness :
    List.Nodup [0, 2] ∧ (∀ c ∈ [0, 2], c < 3) ∧
    (∃ nl st₁,
      transformLine ksEx (some [0, 2]) ⟨[7], 5⟩ [[1, 2], [3], [4, 5, 6]] =
        some (nl, st₁) ∧
      nl.length = 3 ∧
      (∀ j, j ∉ [0, 2] → fld nl j = fld [[1, 2], [3], [4, 5, 6]] j) ∧
      (∀ c ∈ [0, 2], (fld nl c).length = (fld [[1, 2], [3], [4, 5, 6]] c).length ∧
        ∃ p, fld nl c = procBytes ksEx [7] p (fld [[1, 2], [3], [4, 5, 6]] c)) ∧
      st₁.key = [7] ∧
      st₁.pos = 5 + sumLens [[1, 2], [3], [4, 5, 6]] [0, 2]) := by
  have hl : [[1, 2], [3], [4, 5, 6]].length = 3 := rfl
  refine ⟨by decide, by decide, ?_⟩
  have h := row_transform_frame ksEx [0, 2] [[1, 2], [3], [4, 5, 6]] ⟨[7], 5⟩
    (by decide) (by decide)
  simpa [hl] using h

/-- Each field of an all-columns pass, in closed form: field `j` of the output
is the keystream transform of field `j` of the input, taken at the position
reached after consuming the bytes of all earlier fields — every field is
visited exactly once, in ascending index order. -/
theorem cryptoRow_closed_form (aesKS : Bytes → Nat → Nat) :
    ∀ (line : Row) (st : AES) (j : Nat),
      fld (cryptoRow aesKS st line).1 j =
        procBytes aesKS st.key (st.pos + rowBytes (line.take j)) (fld line j) := by
  intro line
  induction line with
  | nil =>
      intro st j
      simp [cryptoRow, fld, procBytes]
  | cons f fs ih =>
      intro st j
      cases j with
      | zero => simp [cryptoRow, crypto, fld, rowBytes]
      | succ n =>
          have hih := ih ⟨st.key, st.pos + f.length⟩ n
          simp only [cryptoRow, crypto, fld, List.getD_cons_succ, List.take_succ_cons] at hih ⊢
          rw [hih]
          rw [show rowBytes (f :: fs.take n) = f.length + rowBytes (fs.take n) from
            by simp [rowBytes]]
          rw [show st.pos + (f.length + rowBytes (fs.take n)) =
            st.pos + f.length + rowBytes (fs.take n) from by omega]

/-- C3 counterexample: no selection resolved from the raw `-c` specification
is ever used during row processing.  With the specification `[1]`,
`options.columns` is still `None` (the optparse callback validates but never
stores the value), the whole-row branch runs, and field 0 — which the resolved
selection `{1}` would leave untouched — is transformed as well. -/
theorem columns_spec_unused_counterexample :
    optionsColumns (some [1]) = none ∧
    transformLine ksEx (optionsColumns (some [1])) ⟨[16], 0⟩ [[1], [2]] =
      some ([[17], [19]], ⟨[16], 2⟩) ∧
    fld [[17], [19]] 0 ≠ fld [[1], [2]] 0 := by
  refine ⟨rfl, rfl, ?_⟩
  decide

/-- C3 amended: the raw column specification never reaches row processing.
For every specification (any order, any multiplicity), `options.columns`
remains `None` — the `-c` callback validates but never stores the value — so
the row loop always takes the all-columns branch: every field index of each
row is visited exactly once, in ascending index order, each field consuming
the keystream slice directly after its predecessors' bytes. -/
theorem columns_spec_discarded_all_fields_once (aesKS : Bytes → Nat → Nat)
    (rawSpec : Option (List Nat)) (st : AES) (line : Row) :
    optionsColumns rawSpec = none ∧
    transformLine aesKS (optionsColumns rawSpec) st line =
      some (cryptoRow aesKS st line) ∧
    (cryptoRow aesKS st line).1.length = line.length ∧
    (∀ j, fld (cryptoRow aesKS st line).1 j =
      procBytes aesKS st.key (st.pos + rowBytes (line.take j)) (fld line j)) :=
  ⟨rfl, rfl, (cryptoRow_length aesKS line st).1,
   fun j => cryptoRow_closed_form aesKS line st j⟩

/-- C10: length preservation — the cipher output has exactly the input's byte
length, the stream advances by exactly that length, an empty input returns an
empty output with the state unchanged, and consequently every field of a
transformed row keeps the byte length of the original field. -/
theorem transform_length_preservation (aesKS : Bytes → Nat → Nat) (st : AES)
    (s : Bytes) (line : Row) :
    (crypto aesKS st s).1.length = s.length ∧
    (crypto aesKS st s).2.key = st.key ∧
    (crypto aesKS st s).2.pos = st.pos + s.length ∧
    crypto aesKS st [] = ([], st) ∧
    (∀ j, (fld (cryptoRow aesKS st line).1 j).length = (fld line j).length) := by
  obtain ⟨_, hf, _, _⟩ := cryptoRow_length aesKS line st
  refine ⟨procBytes_length aesKS st.key st.pos s, rfl, rfl, ?_, hf⟩
  simp [crypto, procBytes]

/-! ## Error propagation through the batch loop -/

theorem applyCols_eq_none_iff (aesKS : Bytes → Nat → Nat) (line : Row) :
    ∀ (cols : List Nat) (a : Row) (st : AES),
      applyCols aesKS line a st cols = none ↔ ∃ c ∈ cols, line.length ≤ c := by
  intro cols
  induction cols with
  | nil => intro a st; simp [applyCols]
  | cons c cs ih =>
      intro a st
      by_cases h : c < line.length
      · simp only [applyCols, dif_pos h]
        rw [ih]
        constructor
        · rintro ⟨c', hc', hlen⟩
          exact ⟨c', List.mem_cons_of_mem c hc', hlen⟩
        · rintro ⟨c', hc', hlen⟩
          rcases List.mem_cons.mp hc' with h' | h'
          · subst h'; omega
          · exact ⟨c', h', hlen⟩
      · simp only [applyCols, dif_neg h]
        constructor
        · intro _
          exact ⟨c, List.mem_cons_self c cs, by omega⟩
        · intro _; trivial

theorem transformLine_eq_none_iff (aesKS : Bytes → Nat → Nat)
    (cols : Option (List Nat)) (st : AES) (line : Row) :
    transformLine aesKS cols st line = none ↔
      ∃ tc, cols = some tc ∧ ∃ c ∈ tc, line.length ≤ c := by
  match cols with
  | none => simp [transformLine]
  | some tc =>
      simp only [transformLine, applyCols_eq_none_iff]
      constructor
      · rintro ⟨c, hc, hlen⟩
        exact ⟨tc, rfl, c, mem_sortedColumns.mp hc, hlen⟩
      · rintro ⟨tc', htc, c, hc, hlen⟩
        cases Option.some.inj htc
        exact ⟨c, mem_sortedColumns.mpr hc, hlen⟩

theorem transformRows_eq_none_iff (aesKS : Bytes → Nat → Nat)
    (cols : Option (List Nat)) :
    ∀ (rows : List Row) (st : AES),
      transformRows aesKS cols st rows = none ↔
        ∃ r ∈ rows, ∃ tc, cols = some tc ∧ ∃ c ∈ tc, r.length ≤ c := by
  intro rows
  induction rows with
  | nil => intro st; simp [transformRows]
  | cons r rs ih =>
      intro st
      rcases hline : transformLine aesKS cols st r with _ | p
      · simp only [transformRows, hline]
        rw [transformLine_eq_none_iff] at hline
        obtain ⟨tc, htc, c, hc, hlen⟩ := hline
        constructor
        · intro _
          exact ⟨r, List.mem_cons_self r rs, tc, htc, c, hc, hlen⟩
        · intro _; trivial
      · have hline' : ¬ ∃ tc, cols = some tc ∧ ∃ c ∈ tc, r.length ≤ c := by
          rw [← transformLine_eq_none_iff aesKS cols st r, hline]
          simp
        simp only [transformRows, hline]
        rcases hrest : transformRows aesKS cols p.2 rs with _ | q
        · rw [ih p.2] at hrest
          obtain ⟨r', hr', hw⟩ := hrest
          constructor
          · intro _
            exact ⟨r', List.mem_cons_of_mem r hr', hw⟩
          · intro _; trivial
        · have hrest' : ¬ ∃ r' ∈ rs, ∃ tc, cols = some tc ∧ ∃ c ∈ tc, r'.length ≤ c := by
            rw [← ih p.2, hrest]
            simp
          constructor
          · intro h; exact absurd h (by simp)
          · rintro ⟨r', hr', hw⟩
            rcases List.mem_cons.mp hr' with h' | h'
            · subst h'; exact absurd hw hline'
            · exact absurd ⟨r', h', hw⟩ hrest'

theorem processFile_eq_none_iff (md5 : Bytes → Bytes) (aesKS : Bytes → Nat → Nat)
    (cols : Option (List Nat)) (password : Bytes) (rows : List Row) :
    processFile md5 aesKS cols password rows = none ↔
      inRangeSelB cols rows = false := by
  rw [processFile, Option.map_eq_none', transformRows_eq_none_iff]
  match cols with
  | none => simp [inRangeSelB]
  | some tc =>
      simp only [inRangeSelB, Option.some.injEq]
      rw [← Bool.not_eq_true]
      simp only [List.all_eq_true, decide_eq_true_eq]
      push_neg
      constructor
      · rintro ⟨r, hr, tc', htc, c, hc, hlen⟩
        cases htc
        exact ⟨r, hr, c, hc, hlen⟩
      · rintro ⟨r, hr, c, hc, hlen⟩
        exact ⟨r, hr, tc, rfl, c, hc, hlen⟩

/-! ## Per-file independence of the batch loop -/

theorem processBatch_ok_getElem (md5 : Bytes → Bytes) (aesKS : Bytes → Nat → Nat)
    (cols : Option (List Nat)) (password : Bytes) :
    ∀ (ts outs : List Target),
      processBatch md5 aesKS cols password ts = Except.ok outs →
      ∀ i : Nat,
        outs[i]? = (ts[i]?).map
          (fun t => t.bind (processFile md5 aesKS cols password)) := by
  intro ts
  induction ts with
  | nil =>
      intro outs h i
      cases h
      rfl
  | cons t ts ih =>
      intro outs h i
      match t with
      | none =>
          simp only [processBatch] at h
          rcases hrest : processBatch md5 aesKS cols password ts with e | outs'
          · rw [hrest] at h; exact absurd h (by simp [Except.map])
          · rw [hrest] at h
            simp only [Except.map] at h
            cases h
            match i with
            | 0 => simp
            | i + 1 => simpa using ih outs' hrest i
      | some rows =>
          simp only [processBatch] at h
          rcases hfile : processFile md5 aesKS cols password rows with _ | out
          · rw [hfile] at h; exact absurd h (by simp)
          · rw [hfile] at h
            rcases hrest : processBatch md5 aesKS cols password ts with e | outs'
            · rw [hrest] at h; exact absurd h (by simp [Except.map])
            · rw [hrest] at h
              simp only [Except.map] at h
              cases h
              match i with
              | 0 => simp [hfile]
              | i + 1 => simpa using ih outs' hrest i

/-- The whole-row selection can never fail: with `cols = none` every target
parses into a transform that consumes each field in order, so the batch loop
always completes. -/
theorem processBatch_none_ok (md5 : Bytes → Bytes) (aesKS : Bytes → Nat → Nat)
    (password : Bytes) :
    ∀ targets : List Target, ∃ outs,
      processBatch md5 aesKS none password targets = Except.ok outs := by
  intro targets
  induction targets with
  | nil => exact ⟨[], rfl⟩
  | cons t ts ih =>
      obtain ⟨outs, houts⟩ := ih
      match t with
      | none => exact ⟨none :: outs, by simp [processBatch, houts, Except.map]⟩
      | some rows =>
          have hsome : ¬ processFile md5 aesKS none password rows = none := by
            rw [processFile_eq_none_iff]
            simp [inRangeSelB]
          rcases hfile : processFile md5 aesKS none password rows with _ | out
          · exact absurd hfile hsome
          · exact ⟨some out :: outs,
              by simp [processBatch, hfile, houts, Except.map]⟩

/-- C2 counterexample: a run requesting the out-of-range selection `{5}` over
two parseable files skips nothing and signals nothing: the `-c` value is
discarded by the CLI layer (the optparse callback never stores it), so both
files are whole-row transformed and the run succeeds — no
`ColumnOutOfRangeError`, no skip-and-report. -/
theorem out_of_range_run_no_error_counterexample :
    optionsColumns (some [5]) = none ∧
    runBatch md5Ex ksEx (some [5]) [] [some [[[1], [2]]], some [[[3]]]] =
      Except.ok [some [[[17], [19]]], some [[[19]]]] :=
  ⟨rfl, rfl⟩

/-- C2 amended: the program has no out-of-range handling at all, because the
requested selection never reaches row processing: the `-c` callback validates
but never stores its value, so `options.columns` stays `None` and every run
whole-row transforms every parseable target.  The batch never aborts and never
skips a file because of the selection; parse failures remain the only skipped
targets. -/
theorem out_of_range_selection_discarded (md5 : Bytes → Bytes)
    (aesKS : Bytes → Nat → Nat) (rawSpec : Option (List Nat))
    (password : Bytes) (targets : List Target) :
    optionsColumns rawSpec = none ∧
    ∃ outs, runBatch md5 aesKS rawSpec password targets = Except.ok outs ∧
      ∀ i : Nat, outs[i]? = (targets[i]?).map
        (fun t : Target => t.bind (processFile md5 aesKS none password)) := by
  refine ⟨rfl, ?_⟩
  obtain ⟨outs, houts⟩ := processBatch_none_ok md5 aesKS password targets
  exact ⟨outs, houts,
    processBatch_ok_getElem md5 aesKS none password targets outs houts⟩

/-- C6: per-file determinism.  Each file is processed with a fresh engine whose
key is the digest of the hashed password and whose keystream starts at
position zero; consequently, in two successful runs with the same password and
selection, any two targets with identical parsed content — at any positions of
the two batches — produce identical transformed output. -/
theorem per_file_determinism (md5 : Bytes → Bytes) (aesKS : Bytes → Nat → Nat)
    (cols : Option (List Nat)) (password : Bytes) (ts₁ ts₂ outs₁ outs₂ : List Target)
    (h₁ : processBatch md5 aesKS cols password ts₁ = Except.ok outs₁)
    (h₂ : processBatch md5 aesKS cols password ts₂ = Except.ok outs₂)
    (i j : Nat) (heq : ts₁[i]? = ts₂[j]?) :
    outs₁[i]? = outs₂[j]? ∧
    crypto_init md5 password = { key := md5 password, pos := 0 } := by
  refine ⟨?_, rfl⟩
  rw [processBatch_ok_getElem md5 aesKS cols password ts₁ outs₁ h₁ i,
    processBatch_ok_getElem md5 aesKS cols password ts₂ outs₂ h₂ j, heq]

/-- Witness for C6: the same parsed file at different positions of two
different batches yields the identical transformed output. -/
theorem per_file_determinism_witness :
    processBatch md5Ex ksEx none [] [none, some [[[1]]]] =
      Except.ok [none, some [[[17]]]] ∧
    processBatch md5Ex ksEx none [] [some [[[1]]]] = Except.ok [some [[[17]]]] ∧
    [none, some [[[1]]]][1]? = ([some [[[1]]]] : List Target)[0]? ∧
    ([none, some [[[17]]]] : List Target)[1]? =
        ([some [[[17]]]] : List Target)[0]? ∧
    crypto_init md5Ex [] = { key := md5Ex [], pos := 0 } := by
  refine ⟨rfl, rfl, rfl, ?_, ?_⟩
  · exact (per_file_determinism md5Ex ksEx none [] [none, some [[[1]]]]
      [some [[[1]]]] [none, some [[[17]]]] [some [[[17]]]] rfl rfl 1 0 rfl).1
  · exact (per_file_determinism md5Ex ksEx none [] [none, some [[[1]]]]
      [some [[[1]]]] [none, some [[[17]]]] [some [[[17]]]] rfl rfl 1 0 rfl).2

/-- C7 counterexample: `crypto_init` is total — the empty password is accepted
silently and produces a working engine (no `KeyDerivationError` exists anywhere
in the program), contradicting "an empty password is rejected with that
error". -/
theorem empty_password_accepted_counterexample :
    crypto_init md5Ex [] = { key := [16], pos := 0 } ∧
    (crypto ksEx (crypto_init md5Ex []) [7]).1 = [23] := by
  constructor
  · rfl
  · rfl

/-- C7 amended: key derivation never fails.  For every password — the empty
one included — `crypto_init` succeeds, deriving the key as the digest of the
hashed password with the keystream at position zero, and the resulting engine
transforms any byte string (length-preservingly). -/
theorem crypto_init_total (md5 : Bytes → Bytes) (aesKS : Bytes → Nat → Nat)
    (password s : Bytes) :
    crypto_init md5 password = { key := md5 password, pos := 0 } ∧
    (crypto aesKS (crypto_init md5 password) s).1.length = s.length :=
  ⟨rfl, procBytes_length aesKS (md5 password) 0 s⟩

/-! ## The directory crawler

`crawler` queries the filesystem through `os.path.isdir` and `os.listdir`.
The filesystem is modelled as a finite tree (`FSTree`): a regular file or a
directory with an ordered child list (`os.listdir` order).  A path is a list
of name components; the crawler builds child paths as `path + '/' + name`.
The tree model is acyclic by construction, matching the spec's scope (no cycle
detection is performed by the code). -/

inductive FSTree where
  | file : String → FSTree
  | dir : String → List FSTree → FSTree

/-- The name of an entry, as `os.listdir` reports it. -/
def fsName : FSTree → String
  | .file n => n
  | .dir n _ => n

/-- Is the entry a regular file (the negation of `os.path.isdir`)? -/
def isFile : FSTree → Bool
  | .file _ => true
  | .dir _ _ => false

mutual
/-- `crawler` restricted to a single input path resolving to the entry `t`:
a file path is kept unchanged; a directory is replaced by the recursive
expansion of its listed children, in order. -/
def crawlTree (p : List String) : FSTree → List (List String)
  | FSTree.file _ => [p]
  | FSTree.dir _ cs => crawlForest p cs
/-- `crawler(subpaths)` over the child list of a directory at path `p`. -/
def crawlForest (p : List String) : List FSTree → List (List String)
  | [] => []
  | t :: ts => crawlTree (p ++ [fsName t]) t ++ crawlForest p ts
end

/-- `crawler(paths)` from the source: each input path (paired with the
filesystem entry it resolves to) is expanded in order and the results are
appended. -/
def crawler : List (List String × FSTree) → List (List String)
  | [] => []
  | r :: rest => crawlTree r.1 r.2 ++ crawler rest

/-- Fidelity of the split into `crawlTree`/`crawlForest`: expanding a
directory path is exactly running the crawler on its child path list. -/
theorem crawlTree_dir_eq_crawler (p : List String) (n : String) :
    ∀ cs : List FSTree,
      crawlTree p (FSTree.dir n cs) =
        crawler (cs.map fun c => (p ++ [fsName c], c)) := by
  have h : ∀ cs : List FSTree,
      crawlForest p cs = crawler (cs.map fun c => (p ++ [fsName c], c)) := by
    intro cs
    induction cs with
    | nil => rfl
    | cons t ts ih => simp [crawlForest, crawler, ih]
  intro cs
  rw [show crawlTree p (FSTree.dir n cs) = crawlForest p cs from rfl, h cs]

/-- First child with a given name, as `findChild` of a directory listing. -/
def findChild (n : String) : List FSTree → Option FSTree
  | [] => none
  | t :: ts => if fsName t = n then some t else findChild n ts

/-- Navigate a relative path from an entry down the tree. -/
def resolvePath : FSTree → List String → Option FSTree
  | t, [] => some t
  | FSTree.file _, _ :: _ => none
  | FSTree.dir _ cs, n :: rest =>
      match findChild n cs with
      | none => none
      | some c => resolvePath c rest

mutual
/-- Number of regular files in a tree. -/
def countFiles : FSTree → Nat
  | FSTree.file _ => 1
  | FSTree.dir _ cs => countForest cs
def countForest : List FSTree → Nat
  | [] => 0
  | t :: ts => countFiles t + countForest ts
end

/-- Sibling entries carry pairwise distinct names (true of any real directory
listing). -/
def distinctNames : List FSTree → Bool
  | [] => true
  | t :: ts => (!(ts.map fsName).contains (fsName t)) && distinctNames ts

mutual
/-- Every directory listing in the tree has pairwise distinct child names. -/
def goodTree : FSTree → Bool
  | FSTree.file _ => true
  | FSTree.dir _ cs => distinctNames cs && goodForest cs
def goodForest : List FSTree → Bool
  | [] => true
  | t :: ts => goodTree t && goodForest ts
end

theorem distinctNames_cons {t : FSTree} {ts : List FSTree}
    (h : distinctNames (t :: ts) = true) :
    fsName t ∉ ts.map fsName ∧ distinctNames ts = true := by
  simp only [distinctNames, Bool.and_eq_true, Bool.not_eq_true'] at h
  refine ⟨?_, h.2⟩
  intro hmem
  rw [← List.elem_iff] at hmem
  rw [List.contains, hmem] at h
  exact absurd h.1 (by simp)

theorem goodTree_dir {n : String} {cs : List FSTree}
    (h : goodTree (FSTree.dir n cs) = true) :
    distinctNames cs = true ∧ goodForest cs = true := by
  simpa [goodTree, Bool.and_eq_true] using h

theorem goodForest_cons {t : FSTree} {ts : List FSTree}
    (h : goodForest (t :: ts) = true) :
    goodTree t = true ∧ goodForest ts = true := by
  simpa [goodForest, Bool.and_eq_true] using h

theorem findChild_eq_some_iff {m : String} {c : FSTree} :
    ∀ {cs : List FSTree}, distinctNames cs = true →
      (findChild m cs = some c ↔ c ∈ cs ∧ fsName c = m) := by
  intro cs
  induction cs with
  | nil => intro _; simp [findChild]
  | cons t ts ih =>
      intro hd
      obtain ⟨hnot, hd'⟩ := distinctNames_cons hd
      by_cases h : fsName t = m
      · rw [findChild, if_pos h]
        constructor
        · intro hc
          rw [← Option.some.inj hc]
          exact ⟨List.mem_cons_self t ts, h⟩
        · rintro ⟨hmem, hname⟩
          rcases List.mem_cons.mp hmem with h' | h'
          · rw [h']
          · exact absurd (h ▸ hname ▸ List.mem_map_of_mem fsName h') hnot
      · rw [findChild, if_neg h]
        rw [ih hd']
        constructor
        · rintro ⟨hmem, hname⟩
          exact ⟨List.mem_cons_of_mem t hmem, hname⟩
        · rintro ⟨hmem, hname⟩
          rcases List.mem_cons.mp hmem with h' | h'
          · exact absurd (h' ▸ hname) h
          · exact ⟨h', hname⟩

/-- Two decompositions of one list by appends: one prefix extends the other. -/
theorem append_eq_append_extends :
    ∀ (p p' s s' : List String), p ++ s = p' ++ s' →
      (∃ u, p' = p ++ u) ∨ (∃ u, p = p' ++ u) := by
  intro p
  induction p with
  | nil => intro p' s s' _; left; exact ⟨p', rfl⟩
  | cons x xs ih =>
      intro p' s s' h
      match p' with
      | [] => right; exact ⟨x :: xs, rfl⟩
      | y :: ys =>
          simp only [List.cons_append, List.cons.injEq] at h
          rcases ih ys s s' h.2 with ⟨u, hu⟩ | ⟨u, hu⟩
          · left; exact ⟨u, by simp [h.1, hu]⟩
          · right; exact ⟨u, by simp [← h.1, hu]⟩

mutual
theorem crawlTree_extends (p : List String) (t : FSTree) :
    ∀ q ∈ crawlTree p t, ∃ s, q = p ++ s := by
  match t with
  | FSTree.file n =>
      intro q hq
      have hqp : q = p := by simpa [crawlTree] using hq
      exact ⟨[], by simp [hqp]⟩
  | FSTree.dir n cs =>
      intro q hq
      obtain ⟨t', _, s, hs⟩ := crawlForest_extends p cs q hq
      exact ⟨fsName t' :: s, hs⟩
theorem crawlForest_extends (p : List String) (cs : List FSTree) :
    ∀ q ∈ crawlForest p cs, ∃ t ∈ cs, ∃ s, q = p ++ fsName t :: s := by
  match cs with
  | [] => intro q hq; exact absurd hq (by simp [crawlForest])
  | t :: ts =>
      intro q hq
      rw [show crawlForest p (t :: ts) =
        crawlTree (p ++ [fsName t]) t ++ crawlForest p ts from rfl] at hq
      rcases List.mem_append.mp hq with h | h
      · obtain ⟨s, hs⟩ := crawlTree_extends (p ++ [fsName t]) t q h
        exact ⟨t, List.mem_cons_self t ts, s, by simp [hs]⟩
      · obtain ⟨t', ht', s, hs⟩ := crawlForest_extends p ts q h
        exact ⟨t', List.mem_cons_of_mem t ht', s, hs⟩
end

mutual
theorem crawlTree_mem_iff (p : List String) (t : FSTree)
    (hg : goodTree t = true) :
    ∀ q, q ∈ crawlTree p t ↔
      ∃ s, q = p ++ s ∧
        ∃ t', resolvePath t s = some t' ∧ isFile t' = true := by
  match t with
  | FSTree.file n =>
      intro q
      constructor
      · intro hq
        have hqp : q = p := by simpa [crawlTree] using hq
        exact ⟨[], by simp [hqp], FSTree.file n, rfl, rfl⟩
      · rintro ⟨s, hq, t', hres, hfile⟩
        match s with
        | [] => simp [crawlTree, hq]
        | m :: rest => exact absurd hres (by simp [resolvePath])
  | FSTree.dir n cs =>
      intro q
      obtain ⟨hd, hf⟩ := goodTree_dir hg
      rw [show crawlTree p (FSTree.dir n cs) = crawlForest p cs from rfl]
      rw [crawlForest_mem_iff p cs hd hf q]
      constructor
      · rintro ⟨c, hc, s, hq, t', hres, hfile⟩
        refine ⟨fsName c :: s, hq, t', ?_, hfile⟩
        rw [show resolvePath (FSTree.dir n cs) (fsName c :: s) =
          (match findChild (fsName c) cs with
           | none => none
           | some c' => resolvePath c' s) from rfl]
        rw [(findChild_eq_some_iff hd).mpr ⟨hc, rfl⟩]
        exact hres
      · rintro ⟨s, hq, t', hres, hfile⟩
        match s with
        | [] =>
            rw [show resolvePath (FSTree.dir n cs) [] =
              some (FSTree.dir n cs) from rfl] at hres
            rw [← Option.some.inj hres] at hfile
            exact absurd hfile (by simp [isFile])
        | m :: rest =>
            rw [show resolvePath (FSTree.dir n cs) (m :: rest) =
              (match findChild m cs with
               | none => none
               | some c' => resolvePath c' rest) from rfl] at hres
            rcases hfc : findChild m cs with _ | c
            · rw [hfc] at hres; exact absurd hres (by simp)
            · rw [hfc] at hres
              obtain ⟨hc, hname⟩ := (findChild_eq_some_iff hd).mp hfc
              exact ⟨c, hc, rest, by rw [hq, hname], t', hres, hfile⟩
theorem crawlForest_mem_iff (p : List String) (cs : List FSTree)
    (hd : distinctNames cs = true) (hf : goodForest cs = true) :
    ∀ q, q ∈ crawlForest p cs ↔
      ∃ c ∈ cs, ∃ s, q = p ++ fsName c :: s ∧
        ∃ t', resolvePath c s = some t' ∧ isFile t' = true := by
  match cs with
  | [] => intro q; simp [crawlForest]
  | t :: ts =>
      intro q
      obtain ⟨hnot, hd'⟩ := distinctNames_cons hd
      obtain ⟨hgt, hf'⟩ := goodForest_cons hf
      rw [show crawlForest p (t :: ts) =
        crawlTree (p ++ [fsName t]) t ++ crawlForest p ts from rfl]
      rw [List.mem_append, crawlTree_mem_iff (p ++ [fsName t]) t hgt q,
        crawlForest_mem_iff p ts hd' hf' q]
      constructor
      · rintro (⟨s, hq, hrest⟩ | ⟨c, hc, s, hq, hrest⟩)
        · exact ⟨t, List.mem_cons_self t ts, s, by simp [hq], hrest⟩
        · exact ⟨c, List.mem_cons_of_mem t hc, s, hq, hrest⟩
      · rintro ⟨c, hc, s, hq, hrest⟩
        rcases List.mem_cons.mp hc with h' | h'
        · subst h'
          left; exact ⟨s, by simp [hq], hrest⟩
        · right; exact ⟨c, h', s, hq, hrest⟩
end

mutual
theorem crawlTree_nodup (p : List String) (t : FSTree)
    (hg : goodTree t = true) : (crawlTree p t).Nodup := by
  match t with
  | FSTree.file n => simp [crawlTree]
  | FSTree.dir n cs =>
      obtain ⟨hd, hf⟩ := goodTree_dir hg
      exact crawlForest_nodup p cs hd hf
theorem crawlForest_nodup (p : List String) (cs : List FSTree)
    (hd : distinctNames cs = true) (hf : goodForest cs = true) :
    (crawlForest p cs).Nodup := by
  match cs with
  | [] => simp [crawlForest]
  | t :: ts =>
      obtain ⟨hnot, hd'⟩ := distinctNames_cons hd
      obtain ⟨hgt, hf'⟩ := goodForest_cons hf
      rw [show crawlForest p (t :: ts) =
        crawlTree (p ++ [fsName t]) t ++ crawlForest p ts from rfl]
      refine List.Nodup.append (crawlTree_nodup (p ++ [fsName t]) t hgt)
        (crawlForest_nodup p ts hd' hf') ?_
      intro q hq1 hq2
      obtain ⟨s, hs⟩ := crawlTree_extends (p ++ [fsName t]) t q hq1
      obtain ⟨t', ht', s', hs'⟩ := crawlForest_extends p ts q hq2
      have h1 : q = p ++ fsName t :: s := by simpa using hs
      have hcat : p ++ fsName t :: s = p ++ fsName t' :: s' := by
        rw [← h1]; exact hs'
      have h2 := List.append_cancel_left hcat
      have hname : fsName t = fsName t' := by injection h2
      exact hnot (hname ▸ List.mem_map_of_mem fsName ht')
end

mutual
theorem crawlTree_length (p : List String) (t : FSTree) :
    (crawlTree p t).length = countFiles t := by
  match t with
  | FSTree.file n => rfl
  | FSTree.dir n cs => exact crawlForest_length p cs
theorem crawlForest_length (p : List String) (cs : List FSTree) :
    (crawlForest p cs).length = countForest cs := by
  match cs with
  | [] => rfl
  | t :: ts =>
      rw [show crawlForest p (t :: ts) =
        crawlTree (p ++ [fsName t]) t ++ crawlForest p ts from rfl]
      rw [List.length_append, crawlTree_length (p ++ [fsName t]) t,
        crawlForest_length p ts]
      rfl
end

theorem crawler_mem :
    ∀ (roots : List (List String × FSTree)) (q : List String),
      q ∈ crawler roots ↔ ∃ r ∈ roots, q ∈ crawlTree r.1 r.2 := by
  intro roots
  induction roots with
  | nil =>
      intro q
      constructor
      · intro h; exact absurd h (List.not_mem_nil q)
      · rintro ⟨r, hr, _⟩; exact absurd hr (List.not_mem_nil r)
  | cons r rest ih =>
      intro q
      rw [show crawler (r :: rest) = crawlTree r.1 r.2 ++ crawler rest from rfl]
      rw [List.mem_append, ih q]
      constructor
      · rintro (h | ⟨r', hr', h⟩)
        · exact ⟨r, List.mem_cons_self r rest, h⟩
        · exact ⟨r', List.mem_cons_of_mem r hr', h⟩
      · rintro ⟨r', hr', h⟩
        rcases List.mem_cons.mp hr' with h' | h'
        · subst h'; exact Or.inl h
        · exact Or.inr ⟨r', h', h⟩

/-- C9: crawl completeness.  For an acyclic directory tree whose listings have
distinct sibling names, expanding its root yields exactly the tree's regular
files: the output length equals the file count, there are no duplicates, a
path is produced exactly when it resolves to a regular file (so no directory
path and no omission), and each top-level input's expansion is appended in
order before the next top-level input is considered. -/
theorem crawl_completeness (p : List String) (t : FSTree)
    (rest : List (List String × FSTree)) (hg : goodTree t = true) :
    (crawlTree p t).length = countFiles t ∧
    (crawlTree p t).Nodup ∧
    (∀ q, q ∈ crawlTree p t ↔
      ∃ s, q = p ++ s ∧
        ∃ t', resolvePath t s = some t' ∧ isFile t' = true) ∧
    crawler ((p, t) :: rest) = crawlTree p t ++ crawler rest :=
  ⟨crawlTree_length p t, crawlTree_nodup p t hg, crawlTree_mem_iff p t hg, rfl⟩

/-- Witness for C9 at a concrete two-level tree with three files. -/
theorem crawl_completeness_witness :
    goodTree (FSTree.dir "root"
      [FSTree.file "a", FSTree.dir "d" [FSTree.file "b", FSTree.file "c"],
       FSTree.dir "e" []]) = true ∧
    ((crawlTree ["root"] (FSTree.dir "root"
        [FSTree.file "a", FSTree.dir "d" [FSTree.file "b", FSTree.file "c"],
         FSTree.dir "e" []])).length =
      countFiles (FSTree.dir "root"
        [FSTree.file "a", FSTree.dir "d" [FSTree.file "b", FSTree.file "c"],
         FSTree.dir "e" []]) ∧
     (crawlTree ["root"] (FSTree.dir "root"
        [FSTree.file "a", FSTree.dir "d" [FSTree.file "b", FSTree.file "c"],
         FSTree.dir "e" []])).Nodup ∧
     (∀ q, q ∈ crawlTree ["root"] (FSTree.dir "root"
        [FSTree.file "a", FSTree.dir "d" [FSTree.file "b", FSTree.file "c"],
         FSTree.dir "e" []]) ↔
       ∃ s, q = ["root"] ++ s ∧
         ∃ t', resolvePath (FSTree.dir "root"
           [FSTree.file "a", FSTree.dir "d" [FSTree.file "b", FSTree.file "c"],
            FSTree.dir "e" []]) s = some t' ∧ isFile t' = true) ∧
     crawler [(["root"], FSTree.dir "root"
        [FSTree.file "a", FSTree.dir "d" [FSTree.file "b", FSTree.file "c"],
         FSTree.dir "e" []])] =
       crawlTree ["root"] (FSTree.dir "root"
        [FSTree.file "a", FSTree.dir "d" [FSTree.file "b", FSTree.file "c"],
         FSTree.dir "e" []]) ++ crawler []) :=
  ⟨by decide,
   crawl_completeness ["root"]
     (FSTree.dir "root"
       [FSTree.file "a", FSTree.dir "d" [FSTree.file "b", FSTree.file "c"],
        FSTree.dir "e" []]) [] (by decide)⟩

/-- C8 counterexample: the crawler performs no deduplication — giving the same
existing file path twice as input makes the main loop read, transform and
rewrite that file twice in a single run. -/
theorem file_touched_twice_counterexample :
    crawler [(["a"], FSTree.file "a"), (["a"], FSTree.file "a")] =
      [["a"], ["a"]] ∧
    ¬ (crawler [(["a"], FSTree.file "a"), (["a"], FSTree.file "a")]).Nodup := by
  constructor
  · rfl
  · decide

/-- C8 amended: in a run whose input paths are pairwise non-overlapping (no
input path equals or lies below another input path) over well-formed directory
trees, the crawled target list has no duplicates, so no file is processed
twice; the crawler itself never deduplicates, so overlapping or repeated
inputs are each processed again. -/
theorem no_file_touched_twice (roots : List (List String × FSTree))
    (hg : ∀ r ∈ roots, goodTree r.2 = true)
    (hsep : roots.Pairwise
      (fun a b => (∀ s, b.1 ≠ a.1 ++ s) ∧ (∀ s, a.1 ≠ b.1 ++ s))) :
    (crawler roots).Nodup := by
  induction roots with
  | nil => simp [crawler]
  | cons r rest ih =>
      obtain ⟨hsep1, hsep'⟩ := List.pairwise_cons.mp hsep
      rw [show crawler (r :: rest) = crawlTree r.1 r.2 ++ crawler rest from rfl]
      refine List.Nodup.append
        (crawlTree_nodup r.1 r.2 (hg r (List.mem_cons_self r rest)))
        (ih (fun r' hr' => hg r' (List.mem_cons_of_mem r hr')) hsep') ?_
      intro q hq1 hq2
      obtain ⟨s, hs⟩ := crawlTree_extends r.1 r.2 q hq1
      obtain ⟨r', hr', hq⟩ := (crawler_mem rest q).mp hq2
      obtain ⟨s', hs'⟩ := crawlTree_extends r'.1 r'.2 q hq
      have hsep2 := hsep1 r' hr'
      have heq : r.1 ++ s = r'.1 ++ s' := by rw [← hs, hs']
      rcases append_eq_append_extends r.1 r'.1 s s' heq with ⟨u, hu⟩ | ⟨u, hu⟩
      · exact hsep2.1 u hu
      · exact hsep2.2 u hu

/-- Witness for the amended C8: two disjoint roots, one a directory and one a
file, expand with no path repeated. -/
theorem no_file_touched_twice_witness :
    (∀ r ∈ [(["x"], FSTree.dir "x" [FSTree.file "a", FSTree.file "b"]),
            (["y"], FSTree.file "y")], goodTree r.2 = true) ∧
    List.Pairwise
      (fun a b => (∀ s, b.1 ≠ a.1 ++ s) ∧ (∀ s, a.1 ≠ b.1 ++ s))
      [(["x"], FSTree.dir "x" [FSTree.file "a", FSTree.file "b"]),
       (["y"], FSTree.file "y")] ∧
    (crawler [(["x"], FSTree.dir "x" [FSTree.file "a", FSTree.file "b"]),
              (["y"], FSTree.file "y")]).Nodup := by
  have hg : ∀ r ∈ [(["x"], FSTree.dir "x" [FSTree.file "a", FSTree.file "b"]),
      (["y"], FSTree.file "y")], goodTree r.2 = true := by decide
  have hsep : List.Pairwise
      (fun (a : List String × FSTree) (b : List String × FSTree) =>
        (∀ s, b.1 ≠ a.1 ++ s) ∧ (∀ s, a.1 ≠ b.1 ++ s))
      [(["x"], FSTree.dir "x" [FSTree.file "a", FSTree.file "b"]),
       (["y"], FSTree.file "y")] := by
    refine List.Pairwise.cons ?_
      (List.Pairwise.cons (fun b hb => absurd hb (List.not_mem_nil b))
        List.Pairwise.nil)
    intro b hb
    have hb' : b = (["y"], FSTree.file "y") := List.mem_singleton.mp hb
    subst hb'
    refine ⟨?_, ?_⟩
    · intro s hs
      cases s with
      | nil => exact absurd hs (by decide)
      | cons a as => simp at hs
    · intro s hs
      cases s with
      | nil => exact absurd hs (by decide)
      | cons a as => simp at hs
  exact ⟨hg, hsep, no_file_touched_twice _ hg hsep⟩

end CsvCrypto
